import Mathlib

/-!
# Verification of the hybrid community recommender (`app.py`)

Shallow embedding of the scoring pipeline of the Streamlit recommender:
content-based scores (TF-IDF + cosine similarity), collaborative scores
(user-based weighted-sum prediction with a single-student fallback),
global min-max normalization, hybrid blending and top-N ranking.

Matrices are `List (List α)` (row = student, column = community, row-major,
as the NumPy arrays in the source).  The generic stages are stated over an
arbitrary `LinearOrderedField` so that the exact, real-valued pipeline and
concrete rational test inputs share one set of definitions; the text/cosine
stages, which use square roots and logarithms, are over `ℝ`.
-/

/-! ## Definitions -/

/-- Entry `(i, j)` of a row-major matrix, `0` out of range (NumPy-style read
of `m[i, j]` for in-range indices). -/
def entryM {α : Type} [Zero α] (m : List (List α)) (i j : ℕ) : α :=
  (m.getD i []).getD j 0

/-- All entries of a matrix, row by row (the flattened array; the source's
`reshape(-1, 1)` view used by the scaler). -/
def entriesM {α : Type} (m : List (List α)) : List α :=
  m.flatten

/-- Entry `k` of a score row, `0` out of range. -/
def valAt {α : Type} [Zero α] (xs : List α) (k : ℕ) : α :=
  xs.getD k 0

/-- The order `np.argsort` sorts index `i` before index `j` in: ascending by
value, and ascending by position among exactly equal values (NumPy's
small-array introsort bottoms out in a stable insertion sort). -/
def idxLe {α : Type} [LinearOrderedField α] (xs : List α) (i j : ℕ) : Prop :=
  valAt xs i < valAt xs j ∨ (valAt xs i = valAt xs j ∧ i ≤ j)

instance {α : Type} [LinearOrderedField α] (xs : List α) :
    DecidableRel (idxLe xs) :=
  fun i j => inferInstanceAs (Decidable (_ ∨ _))

instance {α : Type} [LinearOrderedField α] (xs : List α) :
    IsTotal ℕ (idxLe xs) := by
  constructor
  intro i j
  rcases lt_trichotomy (valAt xs i) (valAt xs j) with h | h | h
  · exact Or.inl (Or.inl h)
  · rcases le_total i j with hij | hij
    · exact Or.inl (Or.inr ⟨h, hij⟩)
    · exact Or.inr (Or.inr ⟨h.symm, hij⟩)
  · exact Or.inr (Or.inl h)

instance {α : Type} [LinearOrderedField α] (xs : List α) :
    IsTrans ℕ (idxLe xs) := by
  constructor
  rintro i j k (h₁ | ⟨h₁, h₁'⟩) (h₂ | ⟨h₂, h₂'⟩)
  · exact Or.inl (h₁.trans h₂)
  · exact Or.inl (h₂ ▸ h₁)
  · exact Or.inl (h₁ ▸ h₂)
  · exact Or.inr ⟨h₁.trans h₂, h₁'.trans h₂'⟩

/-- `np.argsort(xs)`: the permutation of `0, …, len-1` listing indices in
ascending value order (ties in original-index order). -/
def npArgsort {α : Type} [LinearOrderedField α] (xs : List α) : List ℕ :=
  List.insertionSort (idxLe xs) (List.range xs.length)

/-- `np.argsort(xs)[::-1][:topn]` — the index list the source ranks a
student's hybrid-score row with (`idx_top` in the recommendation loop). -/
def rankIndices {α : Type} [LinearOrderedField α] (xs : List α) (topn : ℕ) :
    List ℕ :=
  ((npArgsort xs).reverse).take topn

/-- Ranked output rows of the `rekos` loop: for each recommended community,
its catalog identity and its blended score. -/
def rekosRow {α : Type} [LinearOrderedField α] (komIds : List String)
    (row : List α) (topn : ℕ) : List (String × α) :=
  (rankIndices row topn).map fun j => (komIds.getD j "", valAt row j)

/-- Community-id list of the detailed-display `recommendations` dictionary:
the source slices `np.argsort(hybrid_scores[i])[::-1][:5]` with a literal
`5`, independent of the configured top-N. -/
def recsTopIds {α : Type} [LinearOrderedField α] (komIds : List String)
    (row : List α) : List String :=
  (rankIndices row 5).map fun j => komIds.getD j ""

/-- Global minimum of all matrix entries (`data_min_` of the `MinMaxScaler`
fitted on the flattened matrix); `0` for an entryless matrix. -/
def matMin {α : Type} [LinearOrderedField α] (m : List (List α)) : α :=
  match entriesM m with
  | [] => 0
  | h :: t => t.foldl min h

/-- Global maximum of all matrix entries (`data_max_` of the scaler). -/
def matMax {α : Type} [LinearOrderedField α] (m : List (List α)) : α :=
  match entriesM m with
  | [] => 0
  | h :: t => t.foldl max h

/-- `cbf_scores_norm` / `cf_scores_norm`: the source reshapes the matrix to
one column, fits `MinMaxScaler` on it and reshapes back, so the scaling is
global: `(x - min) / (max - min)` over all entries, where `MinMaxScaler`
replaces a zero range (`max = min`) by a unit divisor.  When every entry is
`0` (the `np.any(scores != 0)` guard fails) the source skips the scaler and
keeps the matrix unchanged. -/
def minmaxNorm {α : Type} [LinearOrderedField α] (m : List (List α)) :
    List (List α) :=
  if (entriesM m).any (fun x => decide (x ≠ 0)) then
    m.map (List.map fun x =>
      (x - matMin m) / (if matMax m = matMin m then 1 else matMax m - matMin m))
  else m

/-- Element-wise combination of two equally shaped matrices (NumPy
broadcasting of `+`, `*` over arrays of one shape). -/
def matZip {α : Type} (f : α → α → α) (a b : List (List α)) :
    List (List α) :=
  List.zipWith (fun ra rb => List.zipWith f ra rb) a b

/-- The sidebar label selecting the weighted branch of the blender. -/
def weightedLabel : String :=
  "Weighted Average (Pembobotan)"

/-- `hybrid_scores`: `alpha * cbf_scores_norm + (1 - alpha) * cf_scores_norm`
when the weighted method is selected, `(cbf_scores_norm + cf_scores_norm) / 2`
otherwise (simple average). -/
def hybridScores {α : Type} [LinearOrderedField α] (method : String)
    (alpha : α) (cN fN : List (List α)) : List (List α) :=
  if method = weightedLabel then
    matZip (fun x y => alpha * x + (1 - alpha) * y) cN fN
  else
    matZip (fun x y => (x + y) / 2) cN fN

/-- Dot product of two score rows (`np.dot` / `@`; `zipWith` truncates at
the shorter row, which matches NumPy for the equal-shape calls the source
makes). -/
def dotL {α : Type} [LinearOrderedField α] (u v : List α) : α :=
  (List.zipWith (fun x y => x * y) u v).sum

/-- Column `c` of a matrix, rows read with default `0`. -/
def colOf {α : Type} [LinearOrderedField α] (m : List (List α)) (c : ℕ) :
    List α :=
  m.map fun row => row.getD c 0

/-- `sims @ rating_matrix.values`: a row vector times a matrix, one entry
per rating column. -/
def rowVecMul {α : Type} [LinearOrderedField α] (s : List α)
    (m : List (List α)) : List α :=
  (List.range (m.headD []).length).map fun c => dotL s (colOf m c)

/-- Does the character list `l` start with `p`? -/
def startsWithChars : List Char → List Char → Bool
  | _, [] => true
  | [], _ :: _ => false
  | a :: as, b :: bs => a = b && startsWithChars as bs

/-- Does `p` occur as a contiguous run inside `l`? -/
def hasRunChars : List Char → List Char → Bool
  | l, p =>
    startsWithChars l p ||
      match l with
      | [] => false
      | _ :: t => hasRunChars t p

/-- Is `pat` a contiguous character run of `hay`?  Models Python's
`kom_id in col` substring test on strings. -/
def strContains (hay pat : String) : Bool :=
  hasRunChars hay.toList pat.toList

/-- Single-student CF fallback (the `else` branch of the CF stage): scan the
original rating columns in order and, for each column whose *name contains
the community id as a substring*, overwrite the score with that column's
rating divided by `5.0`; a community matching no column keeps the initial
`0` of `np.zeros_like`. -/
def fallbackScore {α : Type} [LinearOrderedField α]
    (origCols : List (String × α)) (komId : String) : α :=
  origCols.foldl
    (fun acc p => if strContains p.1 komId then p.2 / 5 else acc) 0

/-! ### Real-valued text and similarity stages -/

/-- Cosine similarity as `sklearn.metrics.pairwise.cosine_similarity`
computes it for two rows: each row is L2-normalized (a zero row is left as
the zero row) and the normalized rows are dotted.  With Lean's `x / 0 = 0`
convention the single formula below agrees with that, including the
zero-vector cases. -/
noncomputable def cosineSim (u v : List ℝ) : ℝ :=
  dotL u v / (Real.sqrt (dotL u u) * Real.sqrt (dotL v v))

/-- Raw term count of term `t` in a tokenized document (the `tf` part of
`TfidfVectorizer`, which uses raw counts). -/
def tfCount (d : List String) (t : String) : ℕ :=
  d.count t

/-- Document frequency of `t` in the fitted corpus. -/
def docFreq (docs : List (List String)) (t : String) : ℕ :=
  (docs.filter fun d => decide (t ∈ d)).length

/-- The vocabulary extracted by `fit` on the community corpus: every term
occurring in some community document (order irrelevant for the cosine). -/
def vocab (docs : List (List String)) : List String :=
  docs.flatten.dedup

/-- Smoothed inverse document frequency of `TfidfVectorizer`
(`smooth_idf=True` default): `ln((1 + n) / (1 + df)) + 1`. -/
noncomputable def idf (docs : List (List String)) (t : String) : ℝ :=
  Real.log ((1 + docs.length) / (1 + docFreq docs t)) + 1

/-- Unnormalized TF-IDF row of document `d` in the term space fitted on
`docs` (terms of `d` outside the vocabulary contribute nothing, as in
`transform` without refitting). -/
noncomputable def tfidfRaw (docs : List (List String)) (d : List String) :
    List ℝ :=
  (vocab docs).map fun t => (tfCount d t : ℝ) * idf docs t

/-- L2 normalization of a TF-IDF row (`norm='l2'` default; a zero row stays
zero — `sklearn` substitutes norm 1 there, and here `0 / 0 = 0`). -/
noncomputable def l2normalize (v : List ℝ) : List ℝ :=
  v.map fun x => x / Real.sqrt (dotL v v)

/-- TF-IDF vector of a document in the community term space. -/
noncomputable def tfidfVec (docs : List (List String)) (d : List String) :
    List ℝ :=
  l2normalize (tfidfRaw docs d)

/-- One cell of `cbf_scores = cosine_similarity(tfidf_mhs, tfidf_kom)`:
similarity of student profile `p` with community `j`'s content, both
transformed in the term space fitted on the community corpus only. -/
noncomputable def cbfEntry (komDocs : List (List String))
    (p : List String) (j : ℕ) : ℝ :=
  cosineSim (tfidfVec komDocs p) (tfidfVec komDocs (komDocs.getD j []))

/-- The full `cbf_scores` matrix (students × communities). -/
noncomputable def cbfMatrix (komDocs : List (List String))
    (profiles : List (List String)) : List (List ℝ) :=
  profiles.map fun p => (List.range komDocs.length).map fun j =>
    cbfEntry komDocs p j

/-- `user_sim = cosine_similarity(rating_matrix)`: pairwise cosine
similarity of the students' rating vectors. -/
noncomputable def userSim (ratingM : List (List ℝ)) : List (List ℝ) :=
  ratingM.map fun ri => ratingM.map fun rk => cosineSim ri rk

/-- Multi-student CF cell `(i, j)` of the weighted-sum prediction loop:
`sims = user_sim[i]` with `sims[i] = 0`; `denom = sims.sum() + 1e-6`;
`cf_scores_user = (sims @ rating_matrix) / denom`; the value lands in
catalog column `j` only when `Rating_{kom_id}` is a standardized rating
column, else the cell keeps its `np.zeros_like` initial `0`. -/
noncomputable def cfScoresMulti (ratingM : List (List ℝ))
    (komIds stdCols : List String) (i j : ℕ) : ℝ :=
  let sims := ((userSim ratingM).getD i []).set i 0
  let denom := sims.sum + 1 / 1000000
  let cfUser := (rowVecMul sims ratingM).map fun x => x / denom
  let std := "Rating_" ++ komIds.getD j ""
  if std ∈ stdCols then cfUser.getD (stdCols.indexOf std) 0 else 0

/-- The CF stage: all-zero when there are no rating columns
(`rating_matrix.empty`), the weighted-sum prediction when at least two
students exist (`len(df_mahasiswa) > 1`), otherwise the single-student
fallback driven by the *original* rating-column names and values. -/
noncomputable def cfStage (ratingM : List (List ℝ))
    (komIds stdCols : List String)
    (origRatings : List (List (String × ℝ))) (i j : ℕ) : ℝ :=
  if stdCols = [] then 0
  else if 1 < ratingM.length then cfScoresMulti ratingM komIds stdCols i j
  else fallbackScore (origRatings.getD i []) (komIds.getD j "")

/-- The text a `Rating [Community name]` column refers to, as the source
extracts it: the trimmed text between the first `[` and the following `]`
(`col.split('[')[1].split(']')[0].strip()`), `none` when the brackets are
missing. -/
def bracketName (col : String) : Option String :=
  let cs := col.toList
  if '[' ∈ cs ∧ ']' ∈ (cs.dropWhile fun c => c ≠ '[') then
    some (String.mk ((((cs.dropWhile fun c => c ≠ '[').drop 1).takeWhile
      fun c => c ≠ ']')) ).trim
  else none

/-- `standardize_rating_columns`, column-list part: original columns whose
bracket name is a known community id are mapped to `Rating_{name}` (in
original order, duplicates kept as the source appends per column), then a
`Rating_{kom_id}` column is appended for every catalog id not yet present
among the original or mapped columns. -/
def standardizedCols (origCols komIds : List String) : List String :=
  let mapped := (origCols.filterMap fun c =>
    (bracketName c).bind fun n => if n ∈ komIds then some n else none)
  let mappedCols := mapped.map fun n => "Rating_" ++ n
  mappedCols ++ (komIds.filterMap fun k =>
    if ("Rating_" ++ k) ∈ origCols ++ mappedCols then none
    else some ("Rating_" ++ k))

/-- The value a student row holds in standardized column `s`: the student's
value in the last original column mapped onto `s` (later `df[std] = df[orig]`
assignments overwrite earlier ones), `0` for the appended columns. -/
def stdValue {α : Type} [LinearOrderedField α]
    (origPairs : List (String × α)) (komIds : List String) (s : String) : α :=
  (origPairs.foldl
    (fun acc p =>
      match (bracketName p.1).bind fun n =>
          if n ∈ komIds then some n else none with
      | some n => if ("Rating_" ++ n) = s then some p.2 else acc
      | none => acc)
    none).getD 0

/-- The `rating_matrix`: one row per student, one entry per standardized
rating column, missing values filled with `0`. -/
def ratingMatrixOf {α : Type} [LinearOrderedField α]
    (origRatings : List (List (String × α))) (komIds : List String) :
    List (List α) :=
  let stdCols := standardizedCols (origRatings.headD []).unzip.1 komIds
  origRatings.map fun row => stdCols.map fun s => stdValue row komIds s

/-- End-to-end run of the scoring pipeline on one snapshot of the two input
tables and the sidebar configuration: CBF and CF scores, their normalized
versions, the hybrid matrix, the per-student ranked `rekos` rows for the
configured top-N and the fixed top-5 id lists of the `recommendations`
dictionary. -/
noncomputable def fullPipeline (komDocs : List (List String))
    (komIds : List String) (profiles : List (List String))
    (origRatings : List (List (String × ℝ))) (method : String) (alpha : ℝ)
    (topn : ℕ) :
    List (List ℝ) × List (List ℝ) × List (List ℝ) × List (List ℝ) ×
      List (List ℝ) × List (List (String × ℝ)) × List (List String) :=
  let cbf := cbfMatrix komDocs profiles
  let origCols := (origRatings.headD []).unzip.1
  let stdCols := standardizedCols origCols komIds
  let ratingM := ratingMatrixOf origRatings komIds
  let cf := (List.range profiles.length).map fun i =>
    (List.range komDocs.length).map fun j =>
      cfStage ratingM komIds stdCols origRatings i j
  let cbfN := minmaxNorm cbf
  let cfN := minmaxNorm cf
  let hyb := hybridScores method alpha cbfN cfN
  let rekos := (List.range profiles.length).map fun i =>
    rekosRow komIds (hyb.getD i []) topn
  let recsDict := (List.range profiles.length).map fun i =>
    recsTopIds komIds (hyb.getD i [])
  (cbf, cf, cbfN, cfN, hyb, rekos, recsDict)

/-! ## Supporting lemmas -/

theorem npArgsort_length {α : Type} [LinearOrderedField α] (xs : List α) :
    (npArgsort xs).length = xs.length := by
  simp [npArgsort, List.length_insertionSort]

theorem npArgsort_sorted {α : Type} [LinearOrderedField α] (xs : List α) :
    List.Sorted (idxLe xs) (npArgsort xs) :=
  List.sorted_insertionSort _ _

theorem npArgsort_nodup {α : Type} [LinearOrderedField α] (xs : List α) :
    (npArgsort xs).Nodup :=
  ((List.perm_insertionSort _ _).nodup_iff).mpr (List.nodup_range _)

theorem npArgsort_mem_lt {α : Type} [LinearOrderedField α] (xs : List α)
    {a : ℕ} (ha : a ∈ npArgsort xs) : a < xs.length := by
  have := (List.perm_insertionSort (idxLe xs) (List.range xs.length)).subset ha
  simpa using this

theorem rankIndices_length {α : Type} [LinearOrderedField α] (xs : List α)
    (topn : ℕ) : (rankIndices xs topn).length = min topn xs.length := by
  simp [rankIndices, List.length_take, npArgsort_length]

theorem rankIndices_mem_lt {α : Type} [LinearOrderedField α] (xs : List α)
    (topn : ℕ) {a : ℕ} (ha : a ∈ rankIndices xs topn) : a < xs.length := by
  have h₁ : a ∈ (npArgsort xs).reverse :=
    (List.take_sublist _ _).subset ha
  exact npArgsort_mem_lt xs (List.mem_reverse.mp h₁)

theorem rankIndices_pairwise {α : Type} [LinearOrderedField α] (xs : List α)
    (topn : ℕ) :
    (rankIndices xs topn).Pairwise fun a b =>
      valAt xs b < valAt xs a ∨ (valAt xs a = valAt xs b ∧ b < a) := by
  have hs : ((npArgsort xs).reverse).Pairwise fun a b => idxLe xs b a :=
    List.pairwise_reverse.mpr (npArgsort_sorted xs)
  have hn : ((npArgsort xs).reverse).Pairwise fun a b => a ≠ b := by
    simpa [List.Nodup] using (List.nodup_reverse.mpr (npArgsort_nodup xs))
  have hcomb := (hs.and hn).sublist (List.take_sublist topn _)
  refine hcomb.imp ?_
  rintro a b ⟨hle | ⟨heq, hba⟩, hne⟩
  · exact Or.inl hle
  · exact Or.inr ⟨heq.symm, lt_of_le_of_ne hba (Ne.symm hne)⟩

theorem foldl_min_le_init {α : Type} [LinearOrder α] :
    ∀ (t : List α) (a : α), t.foldl min a ≤ a := by
  intro t
  induction t with
  | nil => intro a; exact le_refl a
  | cons b t ih =>
      intro a
      exact le_trans (ih (min a b)) (min_le_left a b)

theorem foldl_min_le_mem {α : Type} [LinearOrder α] :
    ∀ (t : List α) (a y : α), y ∈ t → t.foldl min a ≤ y := by
  intro t
  induction t with
  | nil => intro a y hy; cases hy
  | cons b t ih =>
      intro a y hy
      rcases List.mem_cons.mp hy with rfl | hy
      · exact le_trans (foldl_min_le_init t (min a y)) (min_le_right a y)
      · exact ih (min a b) y hy

theorem foldl_max_init_le {α : Type} [LinearOrder α] :
    ∀ (t : List α) (a : α), a ≤ t.foldl max a := by
  intro t
  induction t with
  | nil => intro a; exact le_refl a
  | cons b t ih =>
      intro a
      exact le_trans (le_max_left a b) (ih (max a b))

theorem foldl_max_mem_le {α : Type} [LinearOrder α] :
    ∀ (t : List α) (a y : α), y ∈ t → y ≤ t.foldl max a := by
  intro t
  induction t with
  | nil => intro a y hy; cases hy
  | cons b t ih =>
      intro a y hy
      rcases List.mem_cons.mp hy with rfl | hy
      · exact le_trans (le_max_right a y) (foldl_max_init_le t (max a y))
      · exact ih (max a b) y hy

theorem foldl_min_mem {α : Type} [LinearOrder α] :
    ∀ (t : List α) (a : α), t.foldl min a ∈ a :: t := by
  intro t
  induction t with
  | nil => intro a; exact List.mem_singleton.mpr rfl
  | cons b t ih =>
      intro a
      have h := ih (min a b)
      rcases List.mem_cons.mp h with h | h
      · rcases min_choice a b with h' | h'
        · exact List.mem_cons.mpr (Or.inl (h.trans h'))
        · exact List.mem_cons.mpr (Or.inr (List.mem_cons.mpr (Or.inl (h.trans h'))))
      · exact List.mem_cons.mpr (Or.inr (List.mem_cons.mpr (Or.inr h)))

theorem foldl_max_mem {α : Type} [LinearOrder α] :
    ∀ (t : List α) (a : α), t.foldl max a ∈ a :: t := by
  intro t
  induction t with
  | nil => intro a; exact List.mem_singleton.mpr rfl
  | cons b t ih =>
      intro a
      have h := ih (max a b)
      rcases List.mem_cons.mp h with h | h
      · rcases max_choice a b with h' | h'
        · exact List.mem_cons.mpr (Or.inl (h.trans h'))
        · exact List.mem_cons.mpr (Or.inr (List.mem_cons.mpr (Or.inl (h.trans h'))))
      · exact List.mem_cons.mpr (Or.inr (List.mem_cons.mpr (Or.inr h)))

theorem matMin_le {α : Type} [LinearOrderedField α] (m : List (List α))
    {x : α} (hx : x ∈ entriesM m) : matMin m ≤ x := by
  cases hE : entriesM m with
  | nil => rw [hE] at hx; cases hx
  | cons h t =>
      have hv : matMin m = t.foldl min h := by unfold matMin; rw [hE]
      rw [hE] at hx
      rw [hv]
      rcases List.mem_cons.mp hx with rfl | hx
      · exact foldl_min_le_init t x
      · exact foldl_min_le_mem t h x hx

theorem le_matMax {α : Type} [LinearOrderedField α] (m : List (List α))
    {x : α} (hx : x ∈ entriesM m) : x ≤ matMax m := by
  cases hE : entriesM m with
  | nil => rw [hE] at hx; cases hx
  | cons h t =>
      have hv : matMax m = t.foldl max h := by unfold matMax; rw [hE]
      rw [hE] at hx
      rw [hv]
      rcases List.mem_cons.mp hx with rfl | hx
      · exact foldl_max_init_le t x
      · exact foldl_max_mem_le t h x hx

theorem matMin_mem {α : Type} [LinearOrderedField α] (m : List (List α))
    (hNe : entriesM m ≠ []) : matMin m ∈ entriesM m := by
  cases hE : entriesM m with
  | nil => exact absurd hE hNe
  | cons h t =>
      have hv : matMin m = t.foldl min h := by unfold matMin; rw [hE]
      rw [hv]
      exact foldl_min_mem t h

theorem matMax_mem {α : Type} [LinearOrderedField α] (m : List (List α))
    (hNe : entriesM m ≠ []) : matMax m ∈ entriesM m := by
  cases hE : entriesM m with
  | nil => exact absurd hE hNe
  | cons h t =>
      have hv : matMax m = t.foldl max h := by unfold matMax; rw [hE]
      rw [hv]
      exact foldl_max_mem t h

theorem entriesM_map {α : Type} (f : α → α) (m : List (List α)) :
    entriesM (m.map (List.map f)) = (entriesM m).map f := by
  simpa [entriesM] using (List.map_flatten f m).symm

theorem getD_map {α β : Type} (f : α → β) (l : List α) {i : ℕ}
    (hi : i < l.length) (d₁ : α) (d₂ : β) :
    (l.map f).getD i d₂ = f (l.getD i d₁) := by
  rw [List.getD_eq_getElem _ _ (by simpa using hi),
    List.getD_eq_getElem _ _ hi, List.getElem_map]

theorem getD_set_of_lt {α : Type} (l : List α) (i k : ℕ) (a d : α)
    (hk : k < l.length) :
    (l.set i a).getD k d = if i = k then a else l.getD k d := by
  rw [List.getD_eq_getElem _ _ (by simpa using hk), List.getElem_set]
  by_cases h : i = k
  · simp [h]
  · rw [if_neg h, if_neg h, List.getD_eq_getElem _ _ hk]

theorem getD_range_map {α : Type} (g : ℕ → α) (L c : ℕ) (hc : c < L)
    (d : α) : ((List.range L).map g).getD c d = g c := by
  rw [List.getD_eq_getElem _ _ (by simpa using hc), List.getElem_map,
    List.getElem_range]

theorem getD_zipWith {α β γ : Type} (f : α → β → γ) (l₁ : List α)
    (l₂ : List β) (i : ℕ) (d₁ : α) (d₂ : β) (d₃ : γ)
    (h₁ : i < l₁.length) (h₂ : i < l₂.length) :
    (List.zipWith f l₁ l₂).getD i d₃ = f (l₁.getD i d₁) (l₂.getD i d₂) := by
  rw [List.getD_eq_getElem _ _ (by simp [List.length_zipWith]; omega),
    List.getD_eq_getElem _ _ h₁, List.getD_eq_getElem _ _ h₂,
    List.getElem_zipWith]

theorem entryM_matZip {α : Type} [Zero α] (f : α → α → α)
    (a b : List (List α)) (i j : ℕ) (hia : i < a.length) (hib : i < b.length)
    (hja : j < (a.getD i []).length) (hjb : j < (b.getD i []).length) :
    entryM (matZip f a b) i j = f (entryM a i j) (entryM b i j) := by
  unfold entryM matZip
  rw [getD_zipWith (fun ra rb => List.zipWith f ra rb) a b i [] [] [] hia hib]
  exact getD_zipWith f _ _ j 0 0 0 hja hjb

theorem zipWith_congrFn {α β γ : Type} (f g : α → β → γ)
    (h : ∀ x y, f x y = g x y) :
    ∀ (l₁ : List α) (l₂ : List β),
      List.zipWith f l₁ l₂ = List.zipWith g l₁ l₂ := by
  intro l₁
  induction l₁ with
  | nil => intro l₂; rfl
  | cons a t ih =>
      intro l₂
      cases l₂ with
      | nil => rfl
      | cons b s => simp [List.zipWith_cons_cons, h, ih]

theorem matZip_congrFn {α : Type} (f g : α → α → α)
    (h : ∀ x y, f x y = g x y) (a b : List (List α)) :
    matZip f a b = matZip g a b :=
  zipWith_congrFn _ _ (fun ra rb => zipWith_congrFn f g h ra rb) a b

theorem zipWith_fst {α β : Type} :
    ∀ (l₁ : List α) (l₂ : List β), l₁.length ≤ l₂.length →
      List.zipWith (fun x _ => x) l₁ l₂ = l₁ := by
  intro l₁
  induction l₁ with
  | nil => intro l₂ _; rfl
  | cons a t ih =>
      intro l₂ h
      cases l₂ with
      | nil => simp at h
      | cons b s =>
          simp only [List.zipWith_cons_cons]
          exact congrArg (a :: ·) (ih s (by simpa using h))

theorem zipWith_snd {α β : Type} :
    ∀ (l₁ : List α) (l₂ : List β), l₂.length ≤ l₁.length →
      List.zipWith (fun _ y => y) l₁ l₂ = l₂ := by
  intro l₁
  induction l₁ with
  | nil => intro l₂ h; cases l₂ with
           | nil => rfl
           | cons b s => simp at h
  | cons a t ih =>
      intro l₂ h
      cases l₂ with
      | nil => rfl
      | cons b s =>
          simp only [List.zipWith_cons_cons]
          exact congrArg (b :: ·) (ih s (by simpa using h))

theorem matZip_fst {α : Type} :
    ∀ (a b : List (List α)), a.length = b.length →
      (∀ i < a.length, (a.getD i []).length = (b.getD i []).length) →
      matZip (fun x _ => x) a b = a := by
  intro a
  induction a with
  | nil => intro b _ _; rfl
  | cons r t ih =>
      intro b hl hr
      cases b with
      | nil => simp at hl
      | cons s u =>
          unfold matZip
          simp only [List.zipWith_cons_cons]
          refine congrArg₂ (· :: ·) ?_ ?_
          · exact zipWith_fst r s (le_of_eq (hr 0 (by simp)))
          · exact ih u (by simpa using hl)
              (fun i hi => by simpa using hr (i + 1) (by simpa using hi))

theorem matZip_snd {α : Type} :
    ∀ (a b : List (List α)), a.length = b.length →
      (∀ i < a.length, (a.getD i []).length = (b.getD i []).length) →
      matZip (fun _ y => y) a b = b := by
  intro a
  induction a with
  | nil => intro b hl _; cases b with
           | nil => rfl
           | cons s u => simp at hl
  | cons r t ih =>
      intro b hl hr
      cases b with
      | nil => simp at hl
      | cons s u =>
          unfold matZip
          simp only [List.zipWith_cons_cons]
          refine congrArg₂ (· :: ·) ?_ ?_
          · exact zipWith_snd r s (le_of_eq (hr 0 (by simp)).symm)
          · exact ih u (by simpa using hl)
              (fun i hi => by simpa using hr (i + 1) (by simpa using hi))

/-! ## Claims -/

/-- **C1** (amended): for every student row, the `rekos` recommendation list
has length `min(top-N, number of communities)` and its index order is
descending in blended score; among exactly equal scores the *higher*
catalog index precedes the lower one (ascending stable `np.argsort`
followed by the `[::-1]` reversal puts later catalog positions first). -/
theorem claim_C1_ranker {α : Type} [LinearOrderedField α]
    (komIds : List String) (row : List α) (topn : ℕ) :
    (rekosRow komIds row topn).length = min topn row.length ∧
    ((rankIndices row topn).Pairwise fun a b =>
      valAt row b < valAt row a ∨ (valAt row a = valAt row b ∧ b < a)) := by
  constructor
  · simp [rekosRow, rankIndices_length]
  · exact rankIndices_pairwise row topn

/-- **C1**, counterexample to the claimed tie-break: on the two-community
row `[0, 0]` (exactly equal blended scores) the ranker emits `[1, 0]`, so
the community with the *lower* catalog index does not precede the higher
one. -/
theorem claim_C1_counterexample :
    rankIndices ([0, 0] : List ℚ) 2 = [1, 0] ∧
    ¬ ((rankIndices ([0, 0] : List ℚ) 2).Pairwise fun a b =>
      valAt ([0, 0] : List ℚ) b < valAt ([0, 0] : List ℚ) a ∨
        (valAt ([0, 0] : List ℚ) a = valAt ([0, 0] : List ℚ) b ∧ a < b)) := by
  constructor
  · decide
  · decide

/-- **C2** (amended): every entry of the normalized matrix lies in `[0, 1]`;
the matrix is passed through unchanged when every raw entry is `0`; but a
*constant nonzero* matrix is not passed through — the scaler maps each of
its entries to `0`. -/
theorem claim_C2_normalizer {α : Type} [LinearOrderedField α]
    (m : List (List α)) :
    (∀ x ∈ entriesM (minmaxNorm m), 0 ≤ x ∧ x ≤ 1) ∧
    ((∀ x ∈ entriesM m, x = 0) → minmaxNorm m = m) ∧
    (∀ c : α, c ≠ 0 → (∀ x ∈ entriesM m, x = c) →
      ∀ y ∈ entriesM (minmaxNorm m), y = 0) := by
  refine ⟨?_, ?_, ?_⟩
  · intro x hx
    by_cases hg : ((entriesM m).any fun x => decide (x ≠ 0)) = true
    · unfold minmaxNorm at hx
      rw [if_pos hg, entriesM_map] at hx
      obtain ⟨y, hy, rfl⟩ := List.mem_map.mp hx
      have h₁ : matMin m ≤ y := matMin_le m hy
      have h₂ : y ≤ matMax m := le_matMax m hy
      by_cases hc : matMax m = matMin m
      · have hy' : y = matMin m := le_antisymm (hc ▸ h₂) h₁
        rw [if_pos hc, hy']
        norm_num
      · rw [if_neg hc]
        have hlt : matMin m < matMax m :=
          lt_of_le_of_ne (h₁.trans h₂) (Ne.symm hc)
        have hpos : (0 : α) < matMax m - matMin m := sub_pos.mpr hlt
        constructor
        · exact div_nonneg (sub_nonneg.mpr h₁) hpos.le
        · exact (div_le_one hpos).mpr (sub_le_sub_right h₂ _)
    · unfold minmaxNorm at hx
      rw [if_neg hg] at hx
      simp only [List.any_eq_true, decide_eq_true_eq] at hg
      push_neg at hg
      rw [hg x hx]
      exact ⟨le_refl 0, zero_le_one⟩
  · intro h0
    have hg : ¬ ((entriesM m).any fun x => decide (x ≠ 0)) = true := by
      simp only [List.any_eq_true, decide_eq_true_eq]
      push_neg
      exact h0
    unfold minmaxNorm
    rw [if_neg hg]
  · intro c hc0 hcall y hy
    rcases hE : entriesM m with _ | ⟨e, es⟩
    · have hg : ¬ ((entriesM m).any fun x => decide (x ≠ 0)) = true := by
        rw [hE]
        simp
      unfold minmaxNorm at hy
      rw [if_neg hg] at hy
      rw [hE] at hy
      cases hy
    · have he : e ∈ entriesM m := by rw [hE]; exact List.mem_cons_self e es
      have hg : ((entriesM m).any fun x => decide (x ≠ 0)) = true := by
        simp only [List.any_eq_true, decide_eq_true_eq]
        exact ⟨e, he, by rw [hcall e he]; exact hc0⟩
      have hmn : matMin m = c := hcall _ (matMin_mem m (by rw [hE]; simp))
      have hmx : matMax m = c := hcall _ (matMax_mem m (by rw [hE]; simp))
      unfold minmaxNorm at hy
      rw [if_pos hg, entriesM_map] at hy
      obtain ⟨x, hx, rfl⟩ := List.mem_map.mp hy
      rw [hcall x hx, hmn, hmx, if_pos rfl]
      simp

/-- **C2**, witness: entry `(0, 1)` of the normalized `[[1, 3]]` lies in
`[0, 1]`; the all-zero matrix `[[0, 0]]` passes through unchanged; and the
constant nonzero matrix `[[3]]` is normalized to the zero entry. -/
theorem claim_C2_normalizer_witness :
    (0 ≤ entryM (minmaxNorm ([[1, 3]] : List (List ℚ))) 0 1 ∧
      entryM (minmaxNorm ([[1, 3]] : List (List ℚ))) 0 1 ≤ 1) ∧
    minmaxNorm ([[0, 0]] : List (List ℚ)) = [[0, 0]] ∧
    entryM (minmaxNorm ([[3]] : List (List ℚ))) 0 0 = 0 := by
  have e13 : minmaxNorm ([[1, 3]] : List (List ℚ)) = [[0, 1]] := by
    unfold minmaxNorm
    rw [if_pos (by norm_num [entriesM])]
    norm_num [matMin, matMax, entriesM, min_def, max_def]
  have e3 : minmaxNorm ([[3]] : List (List ℚ)) = [[0]] := by
    unfold minmaxNorm
    rw [if_pos (by norm_num [entriesM])]
    norm_num [matMin, matMax, entriesM]
  refine ⟨?_, ?_, ?_⟩
  · exact (claim_C2_normalizer ([[1, 3]] : List (List ℚ))).1
      (entryM (minmaxNorm ([[1, 3]] : List (List ℚ))) 0 1)
      (by rw [e13]; norm_num [entryM, entriesM])
  · exact (claim_C2_normalizer ([[0, 0]] : List (List ℚ))).2.1
      (by intro x hx
          simp only [entriesM, List.flatten_cons, List.flatten_nil,
            List.append_nil] at hx
          rcases List.mem_cons.mp hx with rfl | hx
          · rfl
          · exact List.mem_singleton.mp hx)
  · exact (claim_C2_normalizer ([[3]] : List (List ℚ))).2.2 3 (by norm_num)
      (by intro x hx
          simp only [entriesM, List.flatten_cons, List.flatten_nil,
            List.append_nil] at hx
          exact List.mem_singleton.mp hx)
      (entryM (minmaxNorm ([[3]] : List (List ℚ))) 0 0)
      (by rw [e3]; norm_num [entryM, entriesM])

/-- **C2**, counterexample to "constant ⇒ unchanged": the constant nonzero
matrix `[[3]]` is constant (`max = min`) yet is mapped to `[[0]]`, not
passed through. -/
theorem claim_C2_counterexample :
    matMax ([[3]] : List (List ℚ)) = matMin ([[3]] : List (List ℚ)) ∧
    minmaxNorm ([[3]] : List (List ℚ)) = [[0]] ∧
    minmaxNorm ([[3]] : List (List ℚ)) ≠ [[3]] := by
  have e3 : minmaxNorm ([[3]] : List (List ℚ)) = [[0]] := by
    unfold minmaxNorm
    rw [if_pos (by norm_num [entriesM])]
    norm_num [matMin, matMax, entriesM]
  refine ⟨rfl, e3, ?_⟩
  rw [e3]
  intro h
  have h0 := List.head_eq_of_cons_eq h
  have h1 := List.head_eq_of_cons_eq h0
  norm_num at h1

/-- **C3**: each blended cell equals `w·CBF_norm + (1-w)·CF_norm` — with the
caller's `w` in weighted mode and `w = 1/2` in simple-average mode — and at
`w = 1` (resp. `w = 0`) the weighted blend is exactly the normalized CBF
(resp. CF) matrix. -/
theorem claim_C3_blend {α : Type} [LinearOrderedField α]
    (cN fN : List (List α)) (alpha : α) (h0 : 0 ≤ alpha) (h1 : alpha ≤ 1)
    (hl : cN.length = fN.length)
    (hr : ∀ i < cN.length, (cN.getD i []).length = (fN.getD i []).length)
    (i j : ℕ) (hi : i < cN.length) (hj : j < (cN.getD i []).length) :
    entryM (hybridScores weightedLabel alpha cN fN) i j
        = alpha * entryM cN i j + (1 - alpha) * entryM fN i j ∧
    entryM (hybridScores "Simple Average (Rata-rata)" alpha cN fN) i j
        = (1 / 2) * entryM cN i j + (1 - 1 / 2) * entryM fN i j ∧
    hybridScores weightedLabel (1 : α) cN fN = cN ∧
    hybridScores weightedLabel (0 : α) cN fN = fN := by
  have hib : i < fN.length := hl ▸ hi
  have hjb : j < (fN.getD i []).length := (hr i hi) ▸ hj
  refine ⟨?_, ?_, ?_, ?_⟩
  · unfold hybridScores
    rw [if_pos rfl]
    exact entryM_matZip _ cN fN i j hi hib hj hjb
  · unfold hybridScores
    rw [if_neg (by decide)]
    rw [entryM_matZip _ cN fN i j hi hib hj hjb]
    ring
  · unfold hybridScores
    rw [if_pos rfl]
    rw [matZip_congrFn _ (fun x _ => x) (fun x y => by ring) cN fN]
    exact matZip_fst cN fN hl hr
  · unfold hybridScores
    rw [if_pos rfl]
    rw [matZip_congrFn _ (fun _ y => y) (fun x y => by ring) cN fN]
    exact matZip_snd cN fN hl hr

/-- **C3**, witness at `C = [[1, 0]]`, `F = [[0, 1]]`: the weighted cell
formula at `w = 1/2` and the exact `w = 1` identity. -/
theorem claim_C3_blend_witness :
    entryM (hybridScores weightedLabel ((1 : ℚ) / 2) [[1, 0]] [[0, 1]]) 0 0
        = (1 / 2 : ℚ) * entryM [[1, 0]] 0 0
          + (1 - 1 / 2) * entryM [[0, 1]] 0 0 ∧
    hybridScores weightedLabel (1 : ℚ) [[1, 0]] [[0, 1]] = [[1, 0]] := by
  have h := claim_C3_blend ([[1, 0]] : List (List ℚ)) [[0, 1]] (1 / 2)
    (by norm_num) (by norm_num) (by decide) (by decide) 0 0 (by decide)
    (by decide)
  exact ⟨h.1, h.2.2.1⟩

/-- **C8**: the simple-average branch agrees with the weighted branch at
`α = 1/2`, entry for entry (indeed as whole matrices, truncation
included). -/
theorem claim_C8_simple_is_half {α : Type} [LinearOrderedField α]
    (cN fN : List (List α)) (alpha : α) :
    hybridScores "Simple Average (Rata-rata)" alpha cN fN
      = hybridScores weightedLabel (1 / 2 : α) cN fN := by
  unfold hybridScores
  rw [if_neg (by decide), if_pos rfl]
  exact matZip_congrFn _ _ (fun x y => by ring) cN fN

/-- **C10**: the per-student id list of the detailed-display
`recommendations` dictionary is built from the literal slice `[:5]` — its
definition takes no top-N argument at all — so its length is
`min 5 (number of communities)` whatever top-N the sidebar configures. -/
theorem claim_C10_fixed_top5 {α : Type} [LinearOrderedField α]
    (komIds : List String) (row : List α) :
    (recsTopIds komIds row).length = min 5 row.length := by
  simp [recsTopIds, rankIndices_length]

theorem fallbackScore_eq_getLast {α : Type} [LinearOrderedField α]
    (cols : List (String × α)) (k : String) :
    fallbackScore cols k
      = ((cols.filter fun p => strContains p.1 k).map fun p => p.2 / 5).getLastD 0 := by
  induction cols using List.reverseRecOn with
  | nil => rfl
  | append_singleton cs p ih =>
      unfold fallbackScore at *
      rw [List.foldl_append, List.filter_append, List.map_append]
      cases hp : strContains p.1 k with
      | true =>
          simp only [List.foldl_cons, List.foldl_nil, hp, if_true,
            List.filter_cons, List.filter_nil, List.map_cons, List.map_nil]
          exact (List.getLastD_concat _ _ _).symm
      | false =>
          simp only [List.foldl_cons, List.foldl_nil, hp, if_false,
            Bool.false_eq_true, List.filter_cons, List.filter_nil,
            List.map_nil, List.append_nil]
          exact ih

/-- **C5**: with a single student (`len(df_mahasiswa) == 1`, and at least
one rating column so the CF stage is not skipped), when exactly one
original rating column's name contains the community's id and it carries
rating `r`, that community's CF score is `r / 5` — the direct normalization
of the student's own rating by the maximal rating `5.0`. -/
theorem claim_C5_single_student (ratingM : List (List ℝ))
    (komIds stdCols : List String) (origRatings : List (List (String × ℝ)))
    (i j : ℕ) (c : String) (r : ℝ) (hstd : stdCols ≠ [])
    (hone : ratingM.length = 1)
    (hmatch : (origRatings.getD i []).filter
        (fun p => strContains p.1 (komIds.getD j "")) = [(c, r)]) :
    cfStage ratingM komIds stdCols origRatings i j = r / 5 := by
  unfold cfStage
  rw [if_neg hstd, if_neg (by omega)]
  rw [fallbackScore_eq_getLast, hmatch]
  rfl

/-- **C5**, witness: a lone student rating community `GDSC` with `4.0` gets
CF score exactly `0.8` for it. -/
theorem claim_C5_single_student_witness :
    cfStage [[4]] ["GDSC"] ["Rating_GDSC"] [[("Rating [GDSC]", 4)]] 0 0
      = (0.8 : ℝ) := by
  have h := claim_C5_single_student [[4]] ["GDSC"] ["Rating_GDSC"]
    [[("Rating [GDSC]", 4)]] 0 0 "Rating [GDSC]" 4 (by simp) rfl rfl
  rw [h]
  norm_num

/-- **C9**: in the single-student fallback the rating column is located by
substring containment of the community id in the original column name and
the last matching column wins.  With columns `Rating [K1] = 5`,
`Rating [K10] = 2`, `Rating [GDSC] = 4`: community `K1` receives `2 / 5`
(the `K10` column's rating, because `"K1"` occurs inside `"Rating [K10]"`
and that later match overwrites the correct one) instead of its own
`5 / 5`; and community `GDSC-01`, rated through the `Rating [GDSC]` column
whose name does not contain the id `GDSC-01`, keeps CF score `0`. -/
theorem claim_C9_substring_aliasing :
    cfStage [[5, 2]] ["K1", "K10", "GDSC-01"] ["Rating_K1", "Rating_K10"]
        [[("Rating [K1]", 5), ("Rating [K10]", 2), ("Rating [GDSC]", 4)]] 0 0
      = 2 / 5 ∧
    cfStage [[5, 2]] ["K1", "K10", "GDSC-01"] ["Rating_K1", "Rating_K10"]
        [[("Rating [K1]", 5), ("Rating [K10]", 2), ("Rating [GDSC]", 4)]] 0 2
      = 0 ∧
    (2 : ℝ) / 5 ≠ 5 / 5 := by
  refine ⟨rfl, rfl, by norm_num⟩

/-- **C7**: the embedded pipeline is a pure function of the student table,
community table and configuration, so two runs on identical inputs return
identical CBF, CF, normalized and hybrid matrices and identical
recommendation lists. -/
theorem claim_C7_deterministic (komDocs : List (List String))
    (komIds : List String) (profiles : List (List String))
    (origRatings : List (List (String × ℝ))) (method : String) (alpha : ℝ)
    (topn : ℕ) :
    fullPipeline komDocs komIds profiles origRatings method alpha topn
      = fullPipeline komDocs komIds profiles origRatings method alpha topn :=
  rfl

theorem list_sum_eq_range {α : Type} [LinearOrderedField α] (l : List α) :
    l.sum = ((List.range l.length).map fun k => l.getD k 0).sum := by
  induction l with
  | nil => rfl
  | cons a t ih =>
      rw [List.sum_cons, List.length_cons, List.range_succ_eq_map,
        List.map_cons, List.sum_cons, List.map_map]
      have h1 : (List.range t.length).map
            ((fun k => (a :: t).getD k 0) ∘ Nat.succ)
          = (List.range t.length).map fun k => t.getD k 0 :=
        List.map_congr_left fun k _ => by
          simp [Function.comp, List.getD_cons_succ]
      rw [h1, ← ih]
      rfl

theorem dotL_eq_range {α : Type} [LinearOrderedField α] :
    ∀ (u v : List α), dotL u v =
      ((List.range (min u.length v.length)).map fun k =>
        u.getD k 0 * v.getD k 0).sum := by
  intro u
  induction u with
  | nil => intro v; simp [dotL]
  | cons a u ih =>
      intro v
      cases v with
      | nil => simp [dotL]
      | cons b v =>
          unfold dotL at *
          rw [List.zipWith_cons_cons, List.sum_cons, List.length_cons,
            List.length_cons, Nat.succ_min_succ, List.range_succ_eq_map,
            List.map_cons, List.map_map, List.sum_cons]
          have h1 : (List.range (min u.length v.length)).map
                ((fun k => (a :: u).getD k 0 * (b :: v).getD k 0) ∘ Nat.succ)
              = (List.range (min u.length v.length)).map fun k =>
                  u.getD k 0 * v.getD k 0 :=
            List.map_congr_left fun k _ => by
              simp [Function.comp, List.getD_cons_succ]
          rw [h1, ← ih v]
          rfl

/-- **C4**: with at least two students, the CF score of student `i` in the
catalog column `j` of a rated community equals
`(Σ_k sim(i,k) · rating(k, col_j)) / (Σ_k sim(i,k) + 1e-6)` where `sim` is
the cosine similarity of the students' rating vectors with `sim(i,i)`
forced to `0` before both sums are taken. -/
theorem claim_C4_cf_weighted_sum (ratingM : List (List ℝ))
    (komIds stdCols : List String) (origRatings : List (List (String × ℝ)))
    (i j : ℕ) (hn : 2 ≤ ratingM.length) (hi : i < ratingM.length)
    (hwf : ∀ row ∈ ratingM, row.length = stdCols.length)
    (hm : ("Rating_" ++ komIds.getD j "") ∈ stdCols) :
    cfStage ratingM komIds stdCols origRatings i j =
      (((List.range ratingM.length).map fun k =>
        (if k = i then 0
          else cosineSim (ratingM.getD i []) (ratingM.getD k [])) *
            (ratingM.getD k []).getD
              (stdCols.indexOf ("Rating_" ++ komIds.getD j "")) 0).sum)
        /
      ((((List.range ratingM.length).map fun k =>
        if k = i then 0
          else cosineSim (ratingM.getD i []) (ratingM.getD k [])).sum)
        + 1 / 1000000) := by
  have hne : stdCols ≠ [] := List.ne_nil_of_mem hm
  have hlt : 1 < ratingM.length := by omega
  unfold cfStage
  rw [if_neg hne, if_pos hlt]
  simp only [cfScoresMulti]
  rw [if_pos hm]
  set std := "Rating_" ++ komIds.getD j "" with hstd_def
  set cidx := stdCols.indexOf std with hcidx_def
  have hhead : (ratingM.headD []).length = stdCols.length := by
    cases ratingM with
    | nil => exact absurd hn (by simp)
    | cons a t => exact hwf a (List.mem_cons_self a t)
  have hcidxlt : cidx < stdCols.length := List.indexOf_lt_length.mpr hm
  have hLrow : cidx < (ratingM.headD []).length := by
    rw [hhead]; exact hcidxlt
  have husim : (userSim ratingM).getD i []
      = ratingM.map fun rk => cosineSim (ratingM.getD i []) rk := by
    unfold userSim
    exact getD_map _ ratingM hi [] []
  set sims := ((userSim ratingM).getD i []).set i 0 with hsims
  have hsims_len : sims.length = ratingM.length := by
    rw [hsims, List.length_set, husim, List.length_map]
  have hsims_getD : ∀ k < ratingM.length, sims.getD k 0 =
      if k = i then 0
      else cosineSim (ratingM.getD i []) (ratingM.getD k []) := by
    intro k hk
    rw [hsims, husim,
      getD_set_of_lt _ i k 0 0 (by rw [List.length_map]; exact hk)]
    by_cases hik : i = k
    · simp [hik]
    · rw [if_neg hik, if_neg fun h => hik h.symm]
      exact getD_map _ ratingM hk [] 0
  have hrvm_len : (rowVecMul sims ratingM).length
      = (ratingM.headD []).length := by
    unfold rowVecMul
    simp [List.length_map, List.length_range]
  rw [getD_map _ (rowVecMul sims ratingM) (by rw [hrvm_len]; exact hLrow) 0 0]
  unfold rowVecMul
  rw [getD_range_map _ _ cidx hLrow 0]
  congr 1
  · rw [dotL_eq_range]
    have hclen : (colOf ratingM cidx).length = ratingM.length := by
      unfold colOf
      simp
    rw [hsims_len, hclen, min_self]
    refine congrArg List.sum (List.map_congr_left ?_)
    intro k hk
    have hk' := List.mem_range.mp hk
    rw [hsims_getD k hk']
    have hcol : (colOf ratingM cidx).getD k 0
        = (ratingM.getD k []).getD cidx 0 := by
      unfold colOf
      exact getD_map _ ratingM hk' [] 0
    rw [hcol]
  · congr 1
    rw [list_sum_eq_range sims, hsims_len]
    refine congrArg List.sum (List.map_congr_left ?_)
    intro k hk
    exact hsims_getD k (List.mem_range.mp hk)

/-- **C4**, witness: the weighted-sum prediction formula instantiated for
two students with rating rows `[1, 0]` and `[1, 0]`, community `A`,
cell `(0, 0)`. -/
theorem claim_C4_cf_weighted_sum_witness :
    cfStage [[1, 0], [1, 0]] ["A", "B"] ["Rating_A", "Rating_B"] [] 0 0 =
      (((List.range ([[1, 0], [1, 0]] : List (List ℝ)).length).map fun k =>
        (if k = 0 then 0
          else cosineSim (([[1, 0], [1, 0]] : List (List ℝ)).getD 0 [])
            (([[1, 0], [1, 0]] : List (List ℝ)).getD k [])) *
            (([[1, 0], [1, 0]] : List (List ℝ)).getD k []).getD
              ((["Rating_A", "Rating_B"]).indexOf
                ("Rating_" ++ (["A", "B"].getD 0 ""))) 0).sum)
        /
      ((((List.range ([[1, 0], [1, 0]] : List (List ℝ)).length).map fun k =>
        if k = 0 then 0
          else cosineSim (([[1, 0], [1, 0]] : List (List ℝ)).getD 0 [])
            (([[1, 0], [1, 0]] : List (List ℝ)).getD k [])).sum)
        + 1 / 1000000) :=
  claim_C4_cf_weighted_sum [[1, 0], [1, 0]] ["A", "B"]
    ["Rating_A", "Rating_B"] [] 0 0 (by norm_num) (by norm_num)
    (by intro row hr
        fin_cases hr <;> rfl)
    (by decide)

theorem range_map_sum {α : Type} [AddCommMonoid α] (L : ℕ) (f : ℕ → α) :
    ((List.range L).map f).sum = ∑ k ∈ Finset.range L, f k := by
  induction L with
  | zero => simp
  | succ n ih =>
      rw [List.range_succ, List.map_append, List.sum_append,
        Finset.sum_range_succ, ih]
      simp

theorem dotL_self_nonneg (u : List ℝ) : 0 ≤ dotL u u := by
  rw [dotL_eq_range u u, min_self]
  apply List.sum_nonneg
  intro x hx
  obtain ⟨k, _, rfl⟩ := List.mem_map.mp hx
  exact mul_self_nonneg _

theorem dotL_nonneg : ∀ (u v : List ℝ), (∀ x ∈ u, 0 ≤ x) →
    (∀ x ∈ v, 0 ≤ x) → 0 ≤ dotL u v := by
  intro u
  induction u with
  | nil => intro v _ _; simp [dotL]
  | cons a u ih =>
      intro v hu hv
      cases v with
      | nil => simp [dotL]
      | cons b v =>
          unfold dotL at *
          rw [List.zipWith_cons_cons, List.sum_cons]
          exact add_nonneg
            (mul_nonneg (hu a (List.mem_cons_self a u))
              (hv b (List.mem_cons_self b v)))
            (ih v (fun x hx => hu x (List.mem_cons_of_mem a hx))
              (fun x hx => hv x (List.mem_cons_of_mem b hx)))

theorem dotL_zero_left : ∀ (u v : List ℝ), (∀ x ∈ u, x = 0) →
    dotL u v = 0 := by
  intro u
  induction u with
  | nil => intro v _; simp [dotL]
  | cons a u ih =>
      intro v h
      cases v with
      | nil => simp [dotL]
      | cons b v =>
          unfold dotL at *
          rw [List.zipWith_cons_cons, List.sum_cons,
            h a (List.mem_cons_self a u), zero_mul, zero_add]
          exact ih v fun x hx => h x (List.mem_cons_of_mem a hx)

theorem dotL_sq_le (u v : List ℝ) :
    dotL u v ^ 2 ≤ dotL u u * dotL v v := by
  rw [dotL_eq_range u v, dotL_eq_range u u, dotL_eq_range v v, min_self,
    min_self, range_map_sum, range_map_sum, range_map_sum]
  have huu : (∑ k ∈ Finset.range u.length, u.getD k 0 * u.getD k 0)
      = ∑ k ∈ Finset.range u.length, u.getD k 0 ^ 2 :=
    Finset.sum_congr rfl fun k _ => (pow_two _).symm
  have hvv : (∑ k ∈ Finset.range v.length, v.getD k 0 * v.getD k 0)
      = ∑ k ∈ Finset.range v.length, v.getD k 0 ^ 2 :=
    Finset.sum_congr rfl fun k _ => (pow_two _).symm
  rw [huu, hvv]
  calc (∑ k ∈ Finset.range (min u.length v.length),
        u.getD k 0 * v.getD k 0) ^ 2
      ≤ (∑ k ∈ Finset.range (min u.length v.length), u.getD k 0 ^ 2) *
        ∑ k ∈ Finset.range (min u.length v.length), v.getD k 0 ^ 2 :=
        Finset.sum_mul_sq_le_sq_mul_sq _ _ _
    _ ≤ (∑ k ∈ Finset.range u.length, u.getD k 0 ^ 2) *
        ∑ k ∈ Finset.range v.length, v.getD k 0 ^ 2 := by
        apply mul_le_mul
        · exact Finset.sum_le_sum_of_subset_of_nonneg
            (Finset.range_subset.mpr (min_le_left _ _))
            fun k _ _ => sq_nonneg _
        · exact Finset.sum_le_sum_of_subset_of_nonneg
            (Finset.range_subset.mpr (min_le_right _ _))
            fun k _ _ => sq_nonneg _
        · exact Finset.sum_nonneg fun k _ => sq_nonneg _
        · exact Finset.sum_nonneg fun k _ => sq_nonneg _

theorem cosineSim_le_one (u v : List ℝ) : cosineSim u v ≤ 1 := by
  unfold cosineSim
  by_cases h : Real.sqrt (dotL u u) * Real.sqrt (dotL v v) = 0
  · rw [h, div_zero]
    exact zero_le_one
  · have hnn : 0 ≤ Real.sqrt (dotL u u) * Real.sqrt (dotL v v) :=
      mul_nonneg (Real.sqrt_nonneg _) (Real.sqrt_nonneg _)
    have hpos : 0 < Real.sqrt (dotL u u) * Real.sqrt (dotL v v) :=
      lt_of_le_of_ne hnn (Ne.symm h)
    rw [div_le_one hpos]
    calc dotL u v ≤ |dotL u v| := le_abs_self _
      _ ≤ Real.sqrt (dotL u u * dotL v v) := by
          rw [← Real.sqrt_sq_eq_abs]
          exact Real.sqrt_le_sqrt (dotL_sq_le u v)
      _ = Real.sqrt (dotL u u) * Real.sqrt (dotL v v) :=
          Real.sqrt_mul (dotL_self_nonneg u) _

theorem cosineSim_nonneg (u v : List ℝ) (hu : ∀ x ∈ u, 0 ≤ x)
    (hv : ∀ x ∈ v, 0 ≤ x) : 0 ≤ cosineSim u v :=
  div_nonneg (dotL_nonneg u v hu hv)
    (mul_nonneg (Real.sqrt_nonneg _) (Real.sqrt_nonneg _))

theorem idf_nonneg (docs : List (List String)) (t : String) :
    0 ≤ idf docs t := by
  unfold idf
  have hdf : (docFreq docs t : ℝ) ≤ docs.length := by
    exact_mod_cast List.length_filter_le _ docs
  have h1 : (1 : ℝ) ≤ (1 + docs.length) / (1 + docFreq docs t) := by
    rw [le_div_iff₀ (by positivity)]
    linarith
  have h2 := Real.log_nonneg h1
  linarith

theorem tfidfRaw_nonneg (docs : List (List String)) (d : List String) :
    ∀ x ∈ tfidfRaw docs d, 0 ≤ x := by
  intro x hx
  obtain ⟨t, _, rfl⟩ := List.mem_map.mp hx
  exact mul_nonneg (Nat.cast_nonneg _) (idf_nonneg docs t)

theorem tfidfVec_nonneg (docs : List (List String)) (d : List String) :
    ∀ x ∈ tfidfVec docs d, 0 ≤ x := by
  intro x hx
  unfold tfidfVec l2normalize at hx
  obtain ⟨y, hy, rfl⟩ := List.mem_map.mp hx
  exact div_nonneg (tfidfRaw_nonneg docs d y hy) (Real.sqrt_nonneg _)

theorem tfidfRaw_oov (docs : List (List String)) (d : List String)
    (h : ∀ t ∈ d, t ∉ vocab docs) : ∀ x ∈ tfidfRaw docs d, x = 0 := by
  intro x hx
  obtain ⟨t, ht, rfl⟩ := List.mem_map.mp hx
  have hc : tfCount d t = 0 := by
    rw [tfCount, List.count_eq_zero]
    intro hmem
    exact h t hmem ht
  rw [hc]
  simp

/-- **C6**: every entry of the raw CBF matrix (TF-IDF cosine similarity of
a profile with a community's content, in the term space fitted on the
community corpus only) lies in `[0, 1]`; and a profile consisting only of
out-of-vocabulary tokens (the empty profile included) scores `0` against
every community, as an ordinary output. -/
theorem claim_C6_cbf_range_and_oov (komDocs : List (List String))
    (profiles : List (List String)) :
    (∀ x ∈ entriesM (cbfMatrix komDocs profiles), 0 ≤ x ∧ x ≤ 1) ∧
    (∀ p ∈ profiles, (∀ t ∈ p, t ∉ vocab komDocs) →
      ∀ j, cbfEntry komDocs p j = 0) := by
  constructor
  · intro x hx
    rw [entriesM, List.mem_flatten] at hx
    obtain ⟨row, hrow, hxrow⟩ := hx
    unfold cbfMatrix at hrow
    obtain ⟨p, _, rfl⟩ := List.mem_map.mp hrow
    obtain ⟨j, _, rfl⟩ := List.mem_map.mp hxrow
    constructor
    · exact cosineSim_nonneg _ _ (tfidfVec_nonneg komDocs p)
        (tfidfVec_nonneg komDocs _)
    · exact cosineSim_le_one _ _
  · intro p _ h j
    unfold cbfEntry cosineSim
    have hz : ∀ x ∈ tfidfVec komDocs p, x = 0 := by
      intro x hx
      unfold tfidfVec l2normalize at hx
      obtain ⟨y, hy, rfl⟩ := List.mem_map.mp hx
      rw [tfidfRaw_oov komDocs p h y hy]
      simp
    rw [dotL_zero_left _ _ hz, zero_div]

/-- **C6**, witness: against the one-community corpus
`[["python", "data"]]`, the profile `["web"]`'s score is in `[0, 1]`, and
the fully out-of-vocabulary profile `["zzz"]` scores exactly `0`. -/
theorem claim_C6_cbf_range_and_oov_witness :
    (0 ≤ cbfEntry [["python", "data"]] ["web"] 0 ∧
      cbfEntry [["python", "data"]] ["web"] 0 ≤ 1) ∧
    cbfEntry [["python", "data"]] ["zzz"] 0 = 0 :=
  ⟨(claim_C6_cbf_range_and_oov [["python", "data"]] [["web"]]).1
      (cbfEntry [["python", "data"]] ["web"] 0)
      (by simp [entriesM, cbfMatrix, List.range_succ]),
    (claim_C6_cbf_range_and_oov [["python", "data"]] [["zzz"]]).2
      ["zzz"] (by simp) (by decide) 0⟩
